import Mathlib

/-
Verification of the clause-splitting core of the bank_contract_rag repository
(src/contract_splitter.py and src/law_splitter.py), as a shallow embedding.

Modelling conventions:
* Python strings are lists of Unicode code points (Str).
* The regular-expression patterns of both pattern libraries are compiled by hand
  into maximal-munch matchers.  This is faithful for every pattern in the two
  libraries because no repeated character class contains the character that the
  pattern requires immediately after it, and every pattern ends with the
  line-greedy tail that matches any run of characters other than a newline, so
  no backtracking can change the extent of a match.
* re.finditer is modelled by a left-to-right scan emitting non-overlapping
  matches, resuming after the end of each match; a caret anchor under
  re.MULTILINE restricts candidate positions to position 0 and positions just
  after a newline.
* A rule whose compilation or execution raises re.error is modelled by a rule
  whose scan function returns none; the contract boundary scan catches this and
  skips the rule (the try/except re.error in _find_all_clause_positions).
* Python set iteration order (used by the legal splitter before sorting) is
  unspecified; it is modelled by an arbitrary permutation parameter.
-/

set_option maxRecDepth 10000

/-- Python strings as sequences of Unicode code points. -/
abbrev Str := List Char

/-- Whitespace as used by str.strip and the regex whitespace class: ASCII
whitespace plus the ideographic space U+3000. -/
def isSpaceCh (c : Char) : Bool :=
  c == ' ' || c == '\t' || c == '\n' || c == '\r' || c == '\x0b' || c == '\x0c' || c == '　'

/-- Decimal digit as matched by the regex digit class. -/
def isDigitCh (c : Char) : Bool := '0' ≤ c && c ≤ '9'

/-- ASCII letter, for the lettered-enumeration rule of the legal library. -/
def isAsciiAlphaCh (c : Char) : Bool :=
  ('a' ≤ c && c ≤ 'z') || ('A' ≤ c && c ≤ 'Z')

/-- Half-width or full-width colon, the class that anchors label rules. -/
def isColonCh (c : Char) : Bool := c == ':' || c == '：'

/-- Python text.strip(): drop leading and trailing whitespace. -/
def pstrip (s : Str) : Str :=
  ((s.dropWhile isSpaceCh).reverse.dropWhile isSpaceCh).reverse

/-- Python slicing text[a:b] for 0 ≤ a, b clamped to the ends. -/
def pyslice (s : Str) (a b : Nat) : Str := (s.drop a).take (b - a)

/-- Python substring containment, the `in` operator on strings. -/
def containsSub : Str → Str → Bool
  | h, n =>
    match h with
    | [] => n.isPrefixOf ([] : Str)
    | c :: t => n.isPrefixOf (c :: t) || containsSub t n

/-- Text of a string up to (excluding) the first newline; Python
text.split(chr 10)[0]. -/
def firstLineOf (text : Str) : Str := text.takeWhile (fun c => !(c == '\n'))

/-- A matcher consumes a prefix of the input and returns the remaining suffix;
none means the pattern does not match at this position. -/
abbrev Matcher := Str → Option Str

/-- Sequential composition of a list of matchers. -/
def mcat (ps : List Matcher) : Matcher := fun s => ps.foldlM (fun st p => p st) s

/-- A single literal character. -/
def mlit (c : Char) : Matcher := fun s =>
  match s with
  | x :: rest => if x == c then some rest else none
  | [] => none

/-- A literal string. -/
def mstr (cs : Str) : Matcher := fun s =>
  if cs.isPrefixOf s then some (s.drop cs.length) else none

/-- Exactly one character of a class. -/
def mclassOne (mem : Char → Bool) : Matcher := fun s =>
  match s with
  | x :: rest => if mem x then some rest else none
  | [] => none

/-- One or more characters of a class, maximal munch. -/
def mclass1 (mem : Char → Bool) : Matcher := fun s =>
  let r := s.dropWhile mem
  if r.length < s.length then some r else none

/-- Zero or more characters of a class, maximal munch. -/
def mclassStar (mem : Char → Bool) : Matcher := fun s => some (s.dropWhile mem)

/-- Optional single character of a class. -/
def mclassOpt (mem : Char → Bool) : Matcher := fun s =>
  match s with
  | x :: rest => if mem x then some rest else some (x :: rest)
  | [] => some []

/-- A counted repetition of a class with lo ≤ count ≤ hi, as in the digit
counts of the date rule; faithful because the character required next is never
in the class. -/
def mcount (lo hi : Nat) (mem : Char → Bool) : Matcher := fun s =>
  let r := (s.takeWhile mem).length
  if lo ≤ r && r ≤ hi then some (s.drop r) else none

/-- The tail present at the end of every pattern: consume the rest of the
current line (any characters other than a newline, greedy). -/
def mrestOfLine : Matcher := fun s => some (s.dropWhile (fun c => !(c == '\n')))

/-- Run a matcher at the head of s, returning how many characters it matched. -/
def runM (p : Matcher) (s : Str) : Option Nat := (p s).map (fun r => s.length - r.length)

/-- re.finditer: scan left to right from position pos, emitting non-overlapping
matches and resuming after each match (an empty match advances by one).  atLS
records whether the current position starts a line; when anch is set the
pattern carries a caret anchor under re.MULTILINE and is tried only at line
starts. -/
def finditerAux (anch : Bool) (p : Matcher) : Nat → Str → Nat → Bool → List (Nat × Str)
  | 0, _, _, _ => []
  | _ + 1, [], _, _ => []
  | fuel + 1, c :: rest, pos, atLS =>
    match (if anch && !atLS then none else runM p (c :: rest)) with
    | none => finditerAux anch p fuel rest (pos + 1) (c == '\n')
    | some 0 => (pos, []) :: finditerAux anch p fuel rest (pos + 1) (c == '\n')
    | some (n + 1) =>
      (pos, (c :: rest).take (n + 1)) ::
        finditerAux anch p fuel ((c :: rest).drop (n + 1)) (pos + (n + 1))
          (((c :: rest).take (n + 1)).getLastD 'x' == '\n')

/-- All matches of a pattern in a text, as (start offset, matched text).  The
fuel parameter only bounds the number of scan steps; every step consumes at
least one character, so the text length is always enough fuel. -/
def finditer (anch : Bool) (p : Matcher) (text : Str) : List (Nat × Str) :=
  finditerAux anch p text.length text 0 true

/-- Chinese numerals accepted in article numbers (the full class with hundred,
thousand, ten-thousand and zero). -/
def cnNumFull : List Char := "一二三四五六七八九十百千万零".toList

/-- Chinese numerals one to ten, used by chapter, section and enumeration
rules. -/
def cnNumTen : List Char := "一二三四五六七八九十".toList

/-- Chinese banker-style amount characters of the capital-amount rule. -/
def cnAmount : List Char := "零壹贰叁肆伍陆柒捌玖拾佰仟万亿元整".toList

/-- Circled digits one to ten. -/
def circledDigits : List Char := "①②③④⑤⑥⑦⑧⑨⑩".toList

/-- Membership in an explicit character class. -/
def inClass (l : List Char) (c : Char) : Bool := l.contains c

/-- A rule of the contract pattern library: scan lists all matches of the rule
in a text (none models a raised re.error, caught and skipped by the boundary
scan), matchAt models re.match of the same pattern at the start of a string,
together with the clause-type label and tie-break priority of the table. -/
structure CRule where
  scan : Str → Option (List (Nat × Str))
  matchAt : Str → Option Nat
  ctype : String
  priority : Nat

/-- Build a rule from an anchoredness flag and a matcher. -/
def mkRule (anch : Bool) (p : Matcher) (t : String) (pr : Nat) : CRule :=
  { scan := fun text => some (finditer anch p text)
    matchAt := fun s => runM p s
    ctype := t
    priority := pr }

/-- A label-colon rule of the contract library: caret anchor, a literal
keyword, one colon (half- or full-width), rest of line. -/
def labelRule (kw : String) (t : String) (pr : Nat) : CRule :=
  mkRule true (mcat [mstr kw.toList, mclassOne isColonCh, mrestOfLine]) t pr

/-- The contract pattern library self.contract_clause_patterns: the 26
(pattern, clause type, priority) triples of ContractTextSplitter, in order. -/
def contractClausePatterns : List CRule :=
  [ mkRule false (mcat [mlit '第', mclass1 (inClass cnNumFull), mlit '条', mrestOfLine]) "中文条款" 1
  , mkRule false (mcat [mlit '第', mclass1 isDigitCh, mlit '条', mrestOfLine]) "数字条款" 2
  , mkRule false (mcat [mlit '第', mclass1 (inClass cnNumTen), mlit '章', mrestOfLine]) "章节标题" 3
  , mkRule false (mcat [mlit '第', mclass1 (inClass cnNumTen), mlit '节', mrestOfLine]) "小节标题" 4
  , labelRule "甲方" "甲方信息" 5
  , labelRule "乙方" "乙方信息" 6
  , labelRule "借款人" "借款人信息" 7
  , labelRule "贷款人" "贷款人信息" 8
  , labelRule "出借人" "出借人信息" 9
  , labelRule "保证人" "保证人信息" 10
  , labelRule "贷款金额" "金额条款" 11
  , labelRule "贷款利率" "利率条款" 12
  , labelRule "还款方式" "还款条款" 13
  , labelRule "违约责任" "违约条款" 14
  , labelRule "争议解决" "争议条款" 15
  , labelRule "担保条款" "担保条款" 16
  , labelRule "保密条款" "保密条款" 17
  , mkRule true (mcat [mclass1 isDigitCh, mclassOne (inClass ['.', '、']), mrestOfLine]) "数字编号" 18
  , mkRule true (mcat [mclass1 isDigitCh, mlit '.', mclass1 isDigitCh, mrestOfLine]) "小数编号" 19
  , mkRule true (mcat [mclassOne (inClass ['（', '(']),
      mclass1 (fun c => inClass cnNumTen c || isDigitCh c),
      mclassOne (inClass ['）', ')']), mrestOfLine]) "括号编号" 20
  , mkRule true (mcat [mclassOne (inClass circledDigits), mrestOfLine]) "带圈编号" 21
  , mkRule true (mcat [mclass1 (inClass cnNumTen), mclassOne (inClass ['、', '.']), mrestOfLine]) "中文序号" 22
  , mkRule false (mcat [mstr "人民币".toList, mclass1 (inClass cnAmount), mrestOfLine]) "大写金额" 23
  , mkRule false (mcat [mlit '¥', mclassStar isSpaceCh, mclass1 isDigitCh,
      mclassStar (fun c => c == ',' || isDigitCh c), mclassOpt (fun c => c == '.'),
      mclassStar isDigitCh, mrestOfLine]) "货币金额" 24
  , mkRule true (mcat [mcount 4 4 isDigitCh, mlit '年', mcount 1 2 isDigitCh, mlit '月',
      mcount 1 2 isDigitCh, mlit '日', mrestOfLine]) "日期条款" 25
  , mkRule true (mcat [mclassOne (inClass "合同协议".toList), mlit '期',
      mclassOne (inClass "限间".toList), mclassOne isColonCh, mrestOfLine]) "期限条款" 26
  ]

/-- The contract keyword table self.contract_keywords, in insertion order. -/
def contractKeywords : List (Str × String) :=
  [ ("当事人".toList, "当事人信息")
  , ("贷款".toList, "贷款条款")
  , ("借款".toList, "借款条款")
  , ("还款".toList, "还款条款")
  , ("利息".toList, "利息条款")
  , ("利率".toList, "利率条款")
  , ("担保".toList, "担保条款")
  , ("抵押".toList, "抵押条款")
  , ("质押".toList, "质押条款")
  , ("保证".toList, "保证条款")
  , ("违约".toList, "违约条款")
  , ("赔偿".toList, "赔偿条款")
  , ("争议".toList, "争议条款")
  , ("仲裁".toList, "仲裁条款")
  , ("诉讼".toList, "诉讼条款")
  , ("保密".toList, "保密条款")
  , ("生效".toList, "生效条款")
  , ("终止".toList, "终止条款")
  , ("解除".toList, "解除条款")
  , ("通知".toList, "通知条款")
  , ("送达".toList, "送达条款")
  , ("附件".toList, "附件条款")
  , ("签字".toList, "签字条款")
  , ("盖章".toList, "盖章条款")
  ]

/-- A boundary candidate as recorded by _find_all_clause_positions:
(start offset, stripped matched header, clause type, priority). -/
structure Cand where
  pos : Nat
  header : Str
  ctype : String
  priority : Nat
deriving DecidableEq, Repr

/-- _is_position_already_recorded: some recorded candidate lies within 5
characters of the given position. -/
def isPosRecorded (p : Nat) (recorded : List Cand) : Bool :=
  recorded.any (fun c => Nat.dist p c.pos < 5)

/-- The candidate built from one match of a rule: start offset, stripped
matched text as header, and the type and priority of the rule. -/
def mkCandOf (r : CRule) (m : Nat × Str) : Cand :=
  { pos := m.1, header := pstrip m.2, ctype := r.ctype, priority := r.priority }

/-- One step of the discovery loop: append the candidate unless a position
within 5 characters was already recorded. -/
def dedupStep (acc : List Cand) (c : Cand) : List Cand :=
  if isPosRecorded c.pos acc then acc else acc ++ [c]

/-- The body of the inner loop of _find_all_clause_positions for one rule:
append each match start unless a nearby position was already recorded. -/
def recordMatches (r : CRule) (acc : List Cand) (ms : List (Nat × Str)) : List Cand :=
  ms.foldl (fun acc m => dedupStep acc (mkCandOf r m)) acc

/-- The collection loop of _find_all_clause_positions over all rules, before
sorting; a rule whose scan raises re.error is skipped (try/except). -/
def collectPositions (rules : List CRule) (text : Str) : List Cand :=
  rules.foldl
    (fun acc r =>
      match r.scan text with
      | none => acc
      | some ms => recordMatches r acc ms)
    []

/-- Comparison by offset used to sort candidates; Python list.sort with the
offset key is a stable sort, modelled by the (stable) insertion sort. -/
def candLE (a b : Cand) : Prop := a.pos ≤ b.pos

instance : DecidableRel candLE := fun a b => Nat.decLe a.pos b.pos

/-- _find_all_clause_positions for an arbitrary rule table. -/
def findAllClausePositionsWith (rules : List CRule) (text : Str) : List Cand :=
  (collectPositions rules text).insertionSort candLE

/-- ContractTextSplitter._find_all_clause_positions. -/
def findAllClausePositions (text : Str) : List Cand :=
  findAllClausePositionsWith contractClausePatterns text

/-- The pattern stage of _detect_clause_type: try re.match of every rule in
table order against the (stripped) first line; first match returns its type. -/
def detectPatLoop : List CRule → Str → Option String
  | [], _ => none
  | r :: rs, s => if (r.matchAt s).isSome then some r.ctype else detectPatLoop rs s

/-- The keyword stage of _detect_clause_type: first keyword of the table
contained in the given prefix returns its type. -/
def detectKwLoop : List (Str × String) → Str → Option String
  | [], _ => none
  | kv :: rest, s => if containsSub s kv.1 then some kv.2 else detectKwLoop rest s

/-- ContractTextSplitter._detect_clause_type: pattern re-match on the stripped
first line, then keyword scan over its first 50 characters, then coarse length
buckets on the whole text. -/
def detectClauseType (text : Str) : String :=
  let fl := pstrip (firstLineOf text)
  match detectPatLoop contractClausePatterns fl with
  | some t => t
  | none =>
    match detectKwLoop contractKeywords (fl.take 50) with
    | some t => t
    | none =>
      if text.length < 100 then "短条款"
      else if text.length < 300 then "中等条款"
      else "长条款"

/-- Position of the last newline within a string, if any. -/
def lastNewlinePos : Str → Option Nat
  | [] => none
  | c :: rest =>
    match lastNewlinePos rest with
    | some i => some (i + 1)
    | none => if c == '\n' then some 0 else none

/-- The paragraph separator regex of _split_by_paragraphs (a newline, then
greedy whitespace, then one or more newlines): it matches at a position iff a
newline starts there and the maximal whitespace run after it contains another
newline, and the match extends through the last newline of that run. -/
def paraSep : Str → Option Nat
  | '\n' :: rest =>
    match lastNewlinePos (rest.takeWhile isSpaceCh) with
    | some i => some (i + 2)
    | none => none
  | _ => none

/-- re.split on the paragraph separator: pieces of the text between
non-overlapping separator matches, scanning left to right. -/
def splitSepAux : Nat → (s : Str) → (cur : Str) → List Str
  | 0, s, cur => [(cur.reverse ++ s)]
  | _ + 1, [], cur => [cur.reverse]
  | fuel + 1, c :: rest, cur =>
    match paraSep (c :: rest) with
    | some (n + 1) => cur.reverse :: splitSepAux fuel ((c :: rest).drop (n + 1)) []
    | _ => splitSepAux fuel rest (c :: cur)

/-- The paragraph list used by the fallback: re.split of the text on runs of
two or more newlines (with interleaved whitespace).  The fuel parameter only
bounds the number of scan steps; every step consumes at least one character,
so the text length is always enough fuel. -/
def pySplitParas (text : Str) : List Str := splitSepAux text.length text []

/-- A clause span as produced by the contract splitter: text plus type, header
and priority metadata. -/
structure Span where
  text : Str
  ctype : String
  header : Str
  priority : Nat
deriving DecidableEq, Repr

/-- Header of a fallback paragraph: its first line, stripped, truncated to 50
characters with an ellipsis when longer. -/
def paraHeader (p : Str) : Str :=
  let h := pstrip (firstLineOf p)
  if 50 < h.length then h.take 50 ++ "...".toList else h

/-- ContractTextSplitter._split_by_paragraphs: strip each paragraph, keep the
non-empty ones of at least the minimum length, with detected type, first-line
header and the low priority 999. -/
def splitByParagraphs (minLen : Nat) (text : Str) : List Span :=
  if text = [] then []
  else
    (pySplitParas text).foldl
      (fun acc para =>
        let p := pstrip para
        if p ≠ [] ∧ minLen ≤ p.length then
          acc ++ [{ text := p, ctype := detectClauseType p, header := paraHeader p, priority := 999 }]
        else acc)
      []

/-- The span-building loop of split_by_contract_clauses: the span of candidate
i runs from its offset to the next candidate offset (document end for the
last), is stripped, and is kept when non-empty and at least the minimum
length. -/
def buildClauses (minLen : Nat) (text : Str) : List Cand → List Span
  | [] => []
  | c :: rest =>
    let e := match rest with
      | [] => text.length
      | c2 :: _ => c2.pos
    let t := pstrip (pyslice text c.pos e)
    let tail := buildClauses minLen text rest
    if t ≠ [] ∧ minLen ≤ t.length then
      { text := t, ctype := c.ctype, header := pstrip c.header, priority := c.priority } :: tail
    else tail

/-- ContractTextSplitter.split_by_contract_clauses. -/
def splitByContractClauses (minLen : Nat) (text : Str) : List Span :=
  if pstrip text = [] then []
  else
    match findAllClausePositions text with
    | [] => splitByParagraphs minLen text
    | c0 :: rest =>
      (if 0 < c0.pos then
        (let pt := pstrip (text.take c0.pos)
         if pt ≠ [] ∧ minLen ≤ pt.length then
           [{ text := pt, ctype := detectClauseType pt, header := "合同前言".toList, priority := 0 }]
         else [])
       else [])
      ++ buildClauses minLen text (c0 :: rest)

/-- Search for a party keyword followed by a half- or full-width colon, the
re.search of identify_contract_party restricted to a given window. -/
def searchKwColon (s : Str) (kw : Str) : Bool :=
  containsSub s (kw ++ [':']) || containsSub s (kw ++ ['：'])

/-- The party keyword table of identify_contract_party, in branch order. -/
def partyPatterns : List (Str × String) :=
  [ ("甲方".toList, "甲方")
  , ("乙方".toList, "乙方")
  , ("借款人".toList, "借款人")
  , ("贷款人".toList, "贷款人")
  , ("出借人".toList, "出借人")
  , ("保证人".toList, "保证人")
  , ("抵押人".toList, "抵押人")
  ]

/-- ContractTextSplitter.identify_contract_party: the if/elif chain of
re.search calls over the first 200 characters of the clause text. -/
def identifyContractParty (text : Str) : String :=
  if searchKwColon (text.take 200) "甲方".toList then "甲方"
  else if searchKwColon (text.take 200) "乙方".toList then "乙方"
  else if searchKwColon (text.take 200) "借款人".toList then "借款人"
  else if searchKwColon (text.take 200) "贷款人".toList then "贷款人"
  else if searchKwColon (text.take 200) "出借人".toList then "出借人"
  else if searchKwColon (text.take 200) "保证人".toList then "保证人"
  else if searchKwColon (text.take 200) "抵押人".toList then "抵押人"
  else "其他"

/-- The legal pattern library self.clause_patterns of
UniversalLegalTextSplitter, in order. -/
def lawPatterns : List Matcher :=
  [ mcat [mlit '第', mclass1 (inClass cnNumFull), mlit '条', mrestOfLine]
  , mcat [mlit '第', mclass1 isDigitCh, mlit '条', mrestOfLine]
  , mcat [mlit '第', mclass1 (inClass cnNumTen), mlit '章', mrestOfLine]
  , mcat [mlit '第', mclass1 (inClass cnNumTen), mlit '节', mrestOfLine]
  , mcat [mclass1 isDigitCh, mlit '.', mclass1 isDigitCh, mrestOfLine]
  , mcat [mclass1 (inClass cnNumTen), mclassOne (inClass ['、', '.']), mrestOfLine]
  , mcat [mclassOne (inClass ['（', '(']), mclass1 (inClass cnNumTen),
      mclassOne (inClass ['）', ')']), mrestOfLine]
  , mcat [mclassOne (inClass ['（', '(']), mclass1 isDigitCh,
      mclassOne (inClass ['）', ')']), mrestOfLine]
  , mcat [mclassOne (inClass circledDigits), mrestOfLine]
  , mcat [mclassOne isAsciiAlphaCh, mclassOne (inClass [')', '、', '.']), mrestOfLine]
  ]

/-- The raw (start, matched text) stream collected by split_by_clauses over
all legal patterns in order, before deduplication; none of these patterns is
anchored and re.finditer is called without re.MULTILINE. -/
def lawRaw (text : Str) : List (Nat × Str) :=
  lawPatterns.flatMap (fun p => finditer false p text)

/-- The content of the Python set(clause_starts): duplicates removed, here in
first-occurrence order (set iteration order is unspecified and is abstracted
by a permutation below). -/
def dedupFirst (l : List (Nat × Str)) : List (Nat × Str) :=
  l.foldl (fun acc x => if x ∈ acc then acc else acc ++ [x]) []

/-- Comparison by offset used by sorted with the first-component key; again a
stable sort, modelled by insertion sort. -/
def pairLE (a b : Nat × Str) : Prop := a.1 ≤ b.1

instance : DecidableRel pairLE := fun a b => Nat.decLe a.1 b.1

/-- The sorted deduplicated candidate list of split_by_clauses, with the
unspecified set iteration order abstracted as a permutation parameter. -/
def lawClauseStartsWith (σ : List (Nat × Str) → List (Nat × Str)) (text : Str) :
    List (Nat × Str) :=
  (σ (dedupFirst (lawRaw text))).insertionSort pairLE

/-- The sorted deduplicated candidate list, with the identity iteration
order. -/
def lawClauseStarts (text : Str) : List (Nat × Str) := lawClauseStartsWith id text

/-- The chunk-building loop of split_by_clauses: the chunk of candidate i runs
from its offset to the next candidate offset (document end for the last), is
stripped, and is kept when non-empty and at least the minimum length. -/
def lawBuildChunks (minLen : Nat) (text : Str) : List (Nat × Str) → List Str
  | [] => []
  | c :: rest =>
    let e := match rest with
      | [] => text.length
      | c2 :: _ => c2.1
    let t := pstrip (pyslice text c.1 e)
    let tail := lawBuildChunks minLen text rest
    if t ≠ [] ∧ minLen ≤ t.length then t :: tail else tail

/-- UniversalLegalTextSplitter.split_by_clauses, parameterised by the set
iteration order. -/
def lawSplitByClausesWith (σ : List (Nat × Str) → List (Nat × Str)) (minLen : Nat)
    (text : Str) : List Str :=
  if pstrip text = [] then []
  else
    match lawClauseStartsWith σ text with
    | [] => if minLen ≤ (pstrip text).length then [pstrip text] else []
    | c0 :: rest =>
      (if 0 < c0.1 then
        (let pt := pstrip (text.take c0.1)
         if pt ≠ [] ∧ minLen ≤ pt.length then [pt] else [])
       else [])
      ++ lawBuildChunks minLen text (c0 :: rest)

/-- UniversalLegalTextSplitter.split_by_clauses with the identity iteration
order. -/
def lawSplitByClauses (minLen : Nat) (text : Str) : List Str :=
  lawSplitByClausesWith id minLen text

/-- The type labels of UniversalLegalTextSplitter.detect_clause_type, indexed
in pattern order. -/
def lawTypes : List String :=
  [ "中文条款", "数字条款", "章节标题", "小节标题"
  , "编号条款", "中文序号", "括号中文", "括号数字"
  , "带圈数字", "字母编号" ]

/-- The enumerated pattern loop of detect_clause_type: first pattern matching
at the start of the text returns its indexed type label. -/
def lawDetectLoop : List Matcher → Nat → Str → Option String
  | [], _, _ => none
  | p :: ps, i, s =>
    if (runM p s).isSome then some (lawTypes.getD i "未知条款") else lawDetectLoop ps (i + 1) s

/-- UniversalLegalTextSplitter.detect_clause_type: re.match of each pattern
against the chunk text in order, with the constant fallback label. -/
def lawDetectClauseType (text : Str) : String :=
  (lawDetectLoop lawPatterns 0 text).getD "普通文本"

/-- A loaded document as seen by the processors: source file name, extracted
full text, and the extraction-success flag. -/
structure Doc where
  fileName : String
  fullText : Str
  ok : Bool

/-- Metadata attached to one contract clause record by
ContractDocumentProcessor.process_documents. -/
structure CMeta where
  source : String
  chunkIndex : Nat
  totalChunksInDoc : Nat
  chunkSize : Nat
  clauseType : String
  clauseHeader : Str
  contractParty : String
  clausePriority : Nat
  chunkPreview : Str
deriving DecidableEq, Repr

/-- One enriched contract clause record. -/
structure CRecord where
  text : Str
  meta : CMeta
deriving DecidableEq, Repr

/-- Bounded preview of a chunk: first n characters with newlines replaced by
spaces, with an ellipsis appended when the chunk is longer than n. -/
def chunkPreview (n : Nat) (t : Str) : Str :=
  (t.take n).map (fun ch => if ch == '\n' then ' ' else ch) ++
    (if n < t.length then "...".toList else [])

/-- The per-document enrichment loop of
ContractDocumentProcessor.process_documents: enumerate the clauses of the
document and attach metadata. -/
def enrichContractDoc (minLen : Nat) (doc : Doc) : List CRecord :=
  let clauses := splitByContractClauses minLen doc.fullText
  clauses.enum.map
    (fun ic =>
      { text := ic.2.text
        meta :=
          { source := doc.fileName
            chunkIndex := ic.1
            totalChunksInDoc := clauses.length
            chunkSize := ic.2.text.length
            clauseType := ic.2.ctype
            clauseHeader := ic.2.header
            contractParty := identifyContractParty ic.2.text
            clausePriority := ic.2.priority
            chunkPreview := chunkPreview 120 ic.2.text } })

/-- ContractDocumentProcessor.process_documents over a list of loaded
documents: skip failed extractions, accumulate the enriched records. -/
def processContractDocuments (minLen : Nat) (docs : List Doc) : List CRecord :=
  docs.foldl (fun acc d => if d.ok then acc ++ enrichContractDoc minLen d else acc) []

/-- Metadata attached to one legal chunk record by
UniversalLegalDocumentProcessor.process_documents. -/
structure LMeta where
  source : String
  chunkIndex : Nat
  totalChunksInDoc : Nat
  chunkSize : Nat
  clauseType : String
  clauseHeader : Str
  chunkPreview : Str
deriving DecidableEq, Repr

/-- One enriched legal chunk record. -/
structure LRecord where
  text : Str
  meta : LMeta
deriving DecidableEq, Repr

/-- Header extraction for a legal chunk: first line of the first 50
characters, stripped, truncated to 30 with an ellipsis; the constant label for
plain text. -/
def lawClauseHeader (ctype : String) (chunk : Str) : Str :=
  if ctype ≠ "普通文本" then
    (let h := pstrip (firstLineOf (chunk.take 50))
     if 30 < h.length then h.take 30 ++ "...".toList else h)
  else "普通文本".toList

/-- The per-document enrichment loop of
UniversalLegalDocumentProcessor.process_documents. -/
def enrichLawDoc (minLen : Nat) (doc : Doc) : List LRecord :=
  let chunks := lawSplitByClauses minLen doc.fullText
  chunks.enum.map
    (fun ic =>
      let ctype := lawDetectClauseType ic.2
      { text := ic.2
        meta :=
          { source := doc.fileName
            chunkIndex := ic.1
            totalChunksInDoc := chunks.length
            chunkSize := ic.2.length
            clauseType := ctype
            clauseHeader := lawClauseHeader ctype ic.2
            chunkPreview := chunkPreview 100 ic.2 } })

/-- UniversalLegalDocumentProcessor.process_documents over a list of loaded
documents. -/
def processLawDocuments (minLen : Nat) (docs : List Doc) : List LRecord :=
  docs.foldl (fun acc d => if d.ok then acc ++ enrichLawDoc minLen d else acc) []

/-- The full match stream of the boundary scan in discovery order: all matches
of rule 1, then all matches of rule 2, and so on (an erroring rule contributes
nothing). -/
def discoveredMatches (rules : List CRule) (text : Str) : List Cand :=
  rules.flatMap (fun r =>
    match r.scan text with
    | none => []
    | some ms => ms.map (mkCandOf r))

/-- Greedy deduplication of a candidate stream: keep a candidate iff no
earlier kept candidate lies within 5 characters. -/
def greedyDedup (l : List Cand) : List Cand := l.foldl dedupStep []

/-- Two candidates at least 5 characters apart. -/
def farApart (a b : Cand) : Prop := 5 ≤ Nat.dist a.pos b.pos

/-- The end offset paired with each candidate by the span-building loop: the
next candidate offset, and the document length for the last candidate. -/
def nextEnds (cs : List Cand) (len : Nat) : List Nat :=
  match cs with
  | [] => []
  | _ :: rest => rest.map Cand.pos ++ [len]

/-- View of a legal boundary candidate as a contract candidate record (only
the offset is used by the span-building loops). -/
def candOfPair (p : Nat × Str) : Cand :=
  { pos := p.1, header := p.2, ctype := "", priority := 0 }

theorem pstrip_sublist (s : Str) : (pstrip s).Sublist s := by
  unfold pstrip
  have h1 : (s.dropWhile isSpaceCh).Sublist s := List.dropWhile_sublist _
  have h2 : ((s.dropWhile isSpaceCh).reverse.dropWhile isSpaceCh).Sublist
      (s.dropWhile isSpaceCh).reverse := List.dropWhile_sublist _
  have h3 := h2.reverse
  rw [List.reverse_reverse] at h3
  exact h3.trans h1

theorem drop_sublist_drop (text : Str) {s p : Nat} (h : s ≤ p) :
    (text.drop p).Sublist (text.drop s) := by
  have he : text.drop p = List.drop (p - s) (text.drop s) := by
    rw [List.drop_drop]
    congr 1
    omega
  rw [he]
  exact List.drop_sublist _ _

theorem drop_eq_pyslice_append (s : Str) (p e : Nat) (h : p ≤ e) :
    s.drop p = pyslice s p e ++ s.drop e := by
  unfold pyslice
  conv_lhs => rw [← List.take_append_drop (e - p) (s.drop p)]
  rw [List.drop_drop]
  have he : p + (e - p) = e := by omega
  rw [he]

theorem pyslice_eq_nil_of_len_lt (s : Str) {p e : Nat} (h : s.length < p) :
    pyslice s p e = [] := by
  unfold pyslice
  have : s.drop p = [] := by
    apply List.drop_eq_nil_of_le
    omega
  rw [this, List.take_nil]

theorem buildClauses_join_sublist (minLen : Nat) (text : Str) :
    ∀ (cs : List Cand) (s : Nat), cs.Pairwise candLE →
      (∀ c ∈ cs, s ≤ c.pos) →
      (((buildClauses minLen text cs).map Span.text).flatten).Sublist (text.drop s) := by
  intro cs
  induction cs with
  | nil =>
    intro s _ _
    simp [buildClauses]
  | cons c rest ih =>
    intro s hpw hs
    rw [List.pairwise_cons] at hpw
    obtain ⟨hc, hrest⟩ := hpw
    have hsc : s ≤ c.pos := hs c (List.mem_cons_self _ _)
    cases rest with
    | nil =>
      by_cases hpl : c.pos ≤ text.length
      · have hdec := drop_eq_pyslice_append text c.pos text.length hpl
        simp only [buildClauses]
        by_cases hk : (pstrip (pyslice text c.pos text.length) ≠ [] ∧
            minLen ≤ (pstrip (pyslice text c.pos text.length)).length)
        · rw [if_pos hk]
          simp only [List.map_cons, List.map_nil, List.flatten_cons, List.flatten_nil,
            List.append_nil]
          have h1 : (pstrip (pyslice text c.pos text.length)).Sublist
              (pyslice text c.pos text.length) := pstrip_sublist _
          have h2 : (pyslice text c.pos text.length).Sublist (text.drop c.pos) := by
            rw [hdec]
            exact List.sublist_append_left _ _
          exact (h1.trans h2).trans (drop_sublist_drop text hsc)
        · rw [if_neg hk]
          simp [buildClauses]
      · push_neg at hpl
        have hnil : pstrip (pyslice text c.pos text.length) = [] := by
          rw [pyslice_eq_nil_of_len_lt text hpl]
          rfl
        simp only [buildClauses, hnil]
        simp [buildClauses]
    | cons c2 rest2 =>
      have hce : c.pos ≤ c2.pos := hc c2 (List.mem_cons_self _ _)
      have hdec := drop_eq_pyslice_append text c.pos c2.pos hce
      have hrest2 : ∀ x ∈ c2 :: rest2, c2.pos ≤ x.pos := by
        intro x hx
        rcases List.mem_cons.mp hx with h | h
        · rw [h]
        · rw [List.pairwise_cons] at hrest
          exact hrest.1 x h
      have hih := ih c2.pos hrest hrest2
      simp only [buildClauses]
      by_cases hk : (pstrip (pyslice text c.pos c2.pos) ≠ [] ∧
          minLen ≤ (pstrip (pyslice text c.pos c2.pos)).length)
      · rw [if_pos hk]
        simp only [List.map_cons, List.flatten_cons]
        have h1 : (pstrip (pyslice text c.pos c2.pos)).Sublist
            (pyslice text c.pos c2.pos) := pstrip_sublist _
        have happ := List.Sublist.append h1 hih
        rw [← hdec] at happ
        exact happ.trans (drop_sublist_drop text hsc)
      · rw [if_neg hk]
        exact hih.trans ((drop_sublist_drop text hce).trans (drop_sublist_drop text hsc))

theorem buildClauses_cons (minLen : Nat) (text : Str) (c : Cand) (rest : List Cand) :
    buildClauses minLen text (c :: rest)
      = (let e := match rest with
           | [] => text.length
           | c2 :: _ => c2.pos
         let t := pstrip (pyslice text c.pos e)
         if t ≠ [] ∧ minLen ≤ t.length then
           { text := t, ctype := c.ctype, header := pstrip c.header, priority := c.priority }
             :: buildClauses minLen text rest
         else buildClauses minLen text rest) := rfl

theorem buildClauses_eq_filterMap (minLen : Nat) (text : Str) (h1 : 1 ≤ minLen) :
    ∀ cs : List Cand,
      buildClauses minLen text cs
        = (cs.zip (nextEnds cs text.length)).filterMap
            (fun pr =>
              let t := pstrip (pyslice text pr.1.pos pr.2)
              if minLen ≤ t.length then
                some { text := t, ctype := pr.1.ctype, header := pstrip pr.1.header,
                       priority := pr.1.priority }
              else none) := by
  intro cs
  induction cs with
  | nil => simp [buildClauses, nextEnds]
  | cons c rest ih =>
    have hiff : ∀ t : Str, (t ≠ [] ∧ minLen ≤ t.length) ↔ minLen ≤ t.length := by
      intro t
      constructor
      · exact fun h => h.2
      · intro h
        refine ⟨?_, h⟩
        have : 0 < t.length := by omega
        exact List.ne_nil_of_length_pos this
    cases rest with
    | nil =>
      simp only [buildClauses, nextEnds, List.map_nil, List.nil_append,
        List.zip_cons_cons, List.zip_nil_right, List.filterMap_cons, List.filterMap_nil]
      by_cases hk : minLen ≤ (pstrip (pyslice text c.pos text.length)).length
      · rw [if_pos ((hiff _).mpr hk)]
        simp [hk]
      · rw [if_neg]
        · simp [hk]
        · rw [hiff]
          exact hk
    | cons c2 rest2 =>
      rw [buildClauses_cons]
      dsimp only
      have hzip : (c :: c2 :: rest2).zip (nextEnds (c :: c2 :: rest2) text.length)
          = (c, c2.pos) :: (c2 :: rest2).zip (nextEnds (c2 :: rest2) text.length) := by
        simp [nextEnds]
      rw [hzip, List.filterMap_cons]
      by_cases hk : minLen ≤ (pstrip (pyslice text c.pos c2.pos)).length
      · rw [if_pos ((hiff _).mpr hk)]
        simp only [hk, if_pos, ih]
      · rw [if_neg]
        · simp only [hk, ite_false, ih]
        · rw [hiff]
          exact hk

theorem collect_eq_greedyDedup (rules : List CRule) (text : Str) :
    collectPositions rules text = greedyDedup (discoveredMatches rules text) := by
  suffices h : ∀ (rs : List CRule) (acc : List Cand),
      rs.foldl
        (fun acc r =>
          match r.scan text with
          | none => acc
          | some ms => recordMatches r acc ms)
        acc
        = (discoveredMatches rs text).foldl dedupStep acc by
    exact h rules []
  intro rs
  induction rs with
  | nil =>
    intro acc
    simp [discoveredMatches]
  | cons r rest ih =>
    intro acc
    simp only [List.foldl_cons, discoveredMatches, List.flatMap_cons, List.foldl_append]
    rw [← discoveredMatches]
    cases hscan : r.scan text with
    | none =>
      rw [ih]
      simp
    | some ms =>
      rw [ih]
      congr 1
      unfold recordMatches
      rw [List.foldl_map]

theorem greedyDedup_pairwise (l : List Cand) : (greedyDedup l).Pairwise farApart := by
  suffices h : ∀ (l : List Cand) (acc : List Cand), acc.Pairwise farApart →
      (l.foldl dedupStep acc).Pairwise farApart by
    exact h l [] (List.Pairwise.nil)
  intro l
  induction l with
  | nil => intro acc h; exact h
  | cons x rest ih =>
    intro acc hacc
    simp only [List.foldl_cons]
    apply ih
    unfold dedupStep
    by_cases hr : isPosRecorded x.pos acc
    · rw [if_pos hr]; exact hacc
    · rw [if_neg hr]
      rw [List.pairwise_append]
      refine ⟨hacc, List.pairwise_singleton _ _, ?_⟩
      intro a ha b hb
      rcases List.mem_singleton.mp hb with rfl
      unfold isPosRecorded at hr
      rw [List.any_eq_true] at hr
      push_neg at hr
      have := hr a ha
      unfold farApart
      rw [Nat.dist_comm]
      simpa using this

theorem findAllClausePositions_pairwise_farApart (text : Str) :
    (findAllClausePositions text).Pairwise farApart := by
  have hperm : (findAllClausePositions text).Perm
      (collectPositions contractClausePatterns text) :=
    List.perm_insertionSort _ _
  have hsym : ∀ {a b : Cand}, farApart a b → farApart b a := by
    intro a b h
    unfold farApart at h ⊢
    rw [Nat.dist_comm]
    exact h
  rw [List.Perm.pairwise_iff hsym hperm, collect_eq_greedyDedup]
  exact greedyDedup_pairwise _

theorem findAllClausePositions_sorted (text : Str) :
    (findAllClausePositions text).Pairwise candLE := by
  haveI : IsTotal Cand candLE := ⟨fun a b => Nat.le_total a.pos b.pos⟩
  haveI : IsTrans Cand candLE := ⟨fun a b c => Nat.le_trans⟩
  exact List.sorted_insertionSort candLE (collectPositions contractClausePatterns text)

theorem findAllClausePositions_map_pos_pairwise_lt (text : Str) :
    ((findAllClausePositions text).map Cand.pos).Pairwise (· < ·) := by
  have h1 := findAllClausePositions_sorted text
  have h2 := findAllClausePositions_pairwise_farApart text
  have h3 := h1.and h2
  rw [List.pairwise_map]
  apply h3.imp
  intro a b hab
  obtain ⟨hle, hfar⟩ := hab
  rcases Nat.lt_or_ge a.pos b.pos with h | h
  · exact h
  · exfalso
    have heq : a.pos = b.pos := le_antisymm hle h
    unfold farApart at hfar
    rw [heq, Nat.dist_self] at hfar
    omega

/-- C1 (amended): in the contract boundary scan, the collected candidate list
is the greedy deduplication of the discovery-ordered match stream (so of any
two matches within 5 characters only the first-discovered candidate, i.e. the
one of the earliest rule in priority order, is kept), and all reported
candidates are pairwise at least 5 characters apart.  The legal splitter does
not enforce this window (see the counterexample). -/
theorem contract_dedup_window_keeps_first_discovered (text : Str) :
    collectPositions contractClausePatterns text
        = greedyDedup (discoveredMatches contractClausePatterns text)
      ∧ (findAllClausePositions text).Pairwise farApart :=
  ⟨collect_eq_greedyDedup _ _, findAllClausePositions_pairwise_farApart text⟩

/-- C1 counterexample: in the legal splitter two rule matches 4 characters
apart both survive deduplication (offsets 0 and 4) and, with a small minimum
length, produce two spans, contradicting the claim that matches within 5
characters contribute exactly one boundary candidate. -/
theorem law_keeps_two_candidates_within_window :
    (lawClauseStarts "第1条 一、x".toList).map Prod.fst = [0, 4]
      ∧ Nat.dist 0 4 < 5
      ∧ (lawSplitByClauses 3 "第1条 一、x".toList).length = 2 := by
  refine ⟨by decide, by decide, by decide⟩

theorem lawClauseStartsWith_sorted (σ : List (Nat × Str) → List (Nat × Str)) (text : Str) :
    (lawClauseStartsWith σ text).Pairwise pairLE := by
  haveI : IsTotal (Nat × Str) pairLE := ⟨fun a b => Nat.le_total a.1 b.1⟩
  haveI : IsTrans (Nat × Str) pairLE := ⟨fun a b c => Nat.le_trans⟩
  exact List.sorted_insertionSort pairLE _

theorem lawBuildChunks_cons (minLen : Nat) (text : Str) (c : Nat × Str)
    (rest : List (Nat × Str)) :
    lawBuildChunks minLen text (c :: rest)
      = (let e := match rest with
           | [] => text.length
           | c2 :: _ => c2.1
         let t := pstrip (pyslice text c.1 e)
         if t ≠ [] ∧ minLen ≤ t.length then t :: lawBuildChunks minLen text rest
         else lawBuildChunks minLen text rest) := rfl

theorem lawBuildChunks_nil (minLen : Nat) (text : Str) :
    lawBuildChunks minLen text [] = [] := rfl

theorem buildClauses_nil (minLen : Nat) (text : Str) :
    buildClauses minLen text [] = [] := rfl

theorem lawBuildChunks_eq_map_buildClauses (minLen : Nat) (text : Str) :
    ∀ l : List (Nat × Str),
      lawBuildChunks minLen text l
        = (buildClauses minLen text (l.map candOfPair)).map Span.text := by
  intro l
  induction l with
  | nil => simp [lawBuildChunks, buildClauses]
  | cons c rest ih =>
    cases rest with
    | nil =>
      rw [lawBuildChunks_cons, List.map_cons, List.map_nil, buildClauses_cons]
      dsimp only [candOfPair]
      rw [lawBuildChunks_nil, buildClauses_nil]
      by_cases hk : (pstrip (pyslice text c.1 text.length) ≠ []
          ∧ minLen ≤ (pstrip (pyslice text c.1 text.length)).length)
      · rw [if_pos hk, if_pos hk]
        rfl
      · rw [if_neg hk, if_neg hk]
        rfl
    | cons c2 rest2 =>
      rw [lawBuildChunks_cons, List.map_cons, List.map_cons, buildClauses_cons]
      dsimp only [candOfPair]
      by_cases hk : (pstrip (pyslice text c.1 c2.1) ≠ []
          ∧ minLen ≤ (pstrip (pyslice text c.1 c2.1)).length)
      · rw [if_pos hk, if_pos hk, ih, List.map_cons]
        rfl
      · rw [if_neg hk, if_neg hk, ih]
        rfl

theorem lawBuildChunks_flatten_sublist (minLen : Nat) (text : Str)
    (l : List (Nat × Str)) (hsort : l.Pairwise pairLE) (s : Nat)
    (hs : ∀ c ∈ l, s ≤ c.1) :
    ((lawBuildChunks minLen text l).flatten).Sublist (text.drop s) := by
  rw [lawBuildChunks_eq_map_buildClauses]
  apply buildClauses_join_sublist
  · rw [List.pairwise_map]
    apply hsort.imp
    intro a b hab
    exact hab
  · intro c hc
    rw [List.mem_map] at hc
    obtain ⟨p, hp, rfl⟩ := hc
    exact hs p hp

theorem lawSplitByClausesWith_flatten_sublist
    (σ : List (Nat × Str) → List (Nat × Str)) (minLen : Nat) (text : Str) :
    ((lawSplitByClausesWith σ minLen text).flatten).Sublist text := by
  unfold lawSplitByClausesWith
  by_cases hstrip : pstrip text = []
  · rw [if_pos hstrip]
    simp
  · rw [if_neg hstrip]
    cases hls : lawClauseStartsWith σ text with
    | nil =>
      dsimp only
      by_cases hlen : minLen ≤ (pstrip text).length
      · rw [if_pos hlen]
        simpa using pstrip_sublist text
      · rw [if_neg hlen]
        simp
    | cons c0 rest =>
      have hsort : (c0 :: rest).Pairwise pairLE := by
        rw [← hls]
        exact lawClauseStartsWith_sorted σ text
      have hall : ∀ c ∈ c0 :: rest, c0.1 ≤ c.1 := by
        intro c hc
        rcases List.mem_cons.mp hc with rfl | hmem
        · exact le_refl _
        · rw [List.pairwise_cons] at hsort
          exact hsort.1 c hmem
      have hchunks := lawBuildChunks_flatten_sublist minLen text (c0 :: rest) hsort c0.1 hall
      have htail : ((lawBuildChunks minLen text (c0 :: rest)).flatten).Sublist text :=
        hchunks.trans (List.drop_sublist _ _)
      dsimp only
      by_cases h0 : 0 < c0.1
      · rw [if_pos h0]
        by_cases hkeep : (pstrip (text.take c0.1) ≠ []
            ∧ minLen ≤ (pstrip (text.take c0.1)).length)
        · rw [if_pos hkeep]
          simp only [List.flatten_append, List.flatten_cons, List.flatten_nil,
            List.append_nil]
          have hpt : (pstrip (text.take c0.1)).Sublist (text.take c0.1) := pstrip_sublist _
          have happ := List.Sublist.append hpt hchunks
          rw [List.take_append_drop] at happ
          exact happ
        · rw [if_neg hkeep]
          simpa using htail
      · rw [if_neg h0]
        simpa using htail

theorem contractSplit_flatten_sublist (minLen : Nat) (text : Str)
    (h2 : findAllClausePositions text ≠ []) :
    (((splitByContractClauses minLen text).map Span.text).flatten).Sublist text := by
  unfold splitByContractClauses
  by_cases hstrip : pstrip text = []
  · rw [if_pos hstrip]
    simp
  · rw [if_neg hstrip]
    cases hfp : findAllClausePositions text with
    | nil => exact absurd hfp h2
    | cons c0 rest =>
      have hsort : (c0 :: rest).Pairwise candLE := by
        rw [← hfp]
        exact findAllClausePositions_sorted text
      have hall : ∀ c ∈ c0 :: rest, c0.pos ≤ c.pos := by
        intro c hc
        rcases List.mem_cons.mp hc with rfl | hmem
        · exact le_refl _
        · rw [List.pairwise_cons] at hsort
          exact hsort.1 c hmem
      have hchunks := buildClauses_join_sublist minLen text (c0 :: rest) c0.pos hsort hall
      have htail : (((buildClauses minLen text (c0 :: rest)).map Span.text).flatten).Sublist text :=
        hchunks.trans (List.drop_sublist _ _)
      dsimp only
      by_cases h0 : 0 < c0.pos
      · rw [if_pos h0]
        by_cases hkeep : (pstrip (text.take c0.pos) ≠ []
            ∧ minLen ≤ (pstrip (text.take c0.pos)).length)
        · rw [if_pos hkeep]
          simp only [List.map_append, List.flatten_append, List.map_cons, List.map_nil,
            List.flatten_cons, List.flatten_nil, List.append_nil]
          have hpt : (pstrip (text.take c0.pos)).Sublist (text.take c0.pos) := pstrip_sublist _
          have happ := List.Sublist.append hpt hchunks
          rw [List.take_append_drop] at happ
          exact happ
        · rw [if_neg hkeep]
          simpa using htail
      · rw [if_neg h0]
        simpa using htail

/-- C2: when boundary candidates exist, the clause span of candidate i is the
stripped slice from its offset to the next candidate offset (document end for
the last candidate) and is emitted exactly when the stripped length reaches
the minimum (third conjunct); the candidate offsets are strictly increasing
(second conjunct, so spans are in ascending order and never overlap); and the
in-order concatenation of all emitted span texts, preamble included, is a
subsequence of the original text, with the same guarantee for the legal
splitter (first and last conjuncts). -/
theorem contract_span_construction_and_coverage (minLen : Nat) (text : Str)
    (h1 : 1 ≤ minLen) (h2 : findAllClausePositions text ≠ []) :
    (((splitByContractClauses minLen text).map Span.text).flatten).Sublist text
  ∧ ((findAllClausePositions text).map Cand.pos).Pairwise (· < ·)
  ∧ buildClauses minLen text (findAllClausePositions text)
      = ((findAllClausePositions text).zip
          (nextEnds (findAllClausePositions text) text.length)).filterMap
          (fun pr =>
            let t := pstrip (pyslice text pr.1.pos pr.2)
            if minLen ≤ t.length then
              some { text := t, ctype := pr.1.ctype, header := pstrip pr.1.header,
                     priority := pr.1.priority }
            else none)
  ∧ ((lawSplitByClauses minLen text).flatten).Sublist text :=
  ⟨contractSplit_flatten_sublist minLen text h2,
   findAllClausePositions_map_pos_pairwise_lt text,
   buildClauses_eq_filterMap minLen text h1 _,
   lawSplitByClausesWith_flatten_sublist id minLen text⟩

/-- C2 witness: the span-construction theorem applied to a concrete two-clause
contract text with minimum length 5. -/
theorem contract_span_construction_witness :
    findAllClausePositions "序言序言序言\n第一条 内容内容".toList ≠ []
  ∧ ((((splitByContractClauses 5 "序言序言序言\n第一条 内容内容".toList).map Span.text).flatten).Sublist
        "序言序言序言\n第一条 内容内容".toList
    ∧ ((findAllClausePositions "序言序言序言\n第一条 内容内容".toList).map Cand.pos).Pairwise (· < ·)
    ∧ buildClauses 5 "序言序言序言\n第一条 内容内容".toList
          (findAllClausePositions "序言序言序言\n第一条 内容内容".toList)
        = ((findAllClausePositions "序言序言序言\n第一条 内容内容".toList).zip
            (nextEnds (findAllClausePositions "序言序言序言\n第一条 内容内容".toList)
              "序言序言序言\n第一条 内容内容".toList.length)).filterMap
            (fun pr =>
              let t := pstrip (pyslice "序言序言序言\n第一条 内容内容".toList pr.1.pos pr.2)
              if 5 ≤ t.length then
                some { text := t, ctype := pr.1.ctype, header := pstrip pr.1.header,
                       priority := pr.1.priority }
              else none)
    ∧ ((lawSplitByClauses 5 "序言序言序言\n第一条 内容内容".toList).flatten).Sublist
        "序言序言序言\n第一条 内容内容".toList) :=
  ⟨by decide,
   contract_span_construction_and_coverage 5 "序言序言序言\n第一条 内容内容".toList
     (by decide) (by decide)⟩

theorem splitByParagraphs_eq_filterMap (minLen : Nat) (text : Str) (h1 : 1 ≤ minLen)
    (htext : text ≠ []) :
    splitByParagraphs minLen text
      = (pySplitParas text).filterMap (fun para =>
          let p := pstrip para
          if minLen ≤ p.length then
            some { text := p, ctype := detectClauseType p, header := paraHeader p,
                   priority := 999 }
          else none) := by
  unfold splitByParagraphs
  rw [if_neg htext]
  suffices h : ∀ (l : List Str) (acc : List Span),
      l.foldl
        (fun acc para =>
          let p := pstrip para
          if p ≠ [] ∧ minLen ≤ p.length then
            acc ++ [{ text := p, ctype := detectClauseType p, header := paraHeader p,
                      priority := 999 }]
          else acc)
        acc
        = acc ++ l.filterMap (fun para =>
            let p := pstrip para
            if minLen ≤ p.length then
              some { text := p, ctype := detectClauseType p, header := paraHeader p,
                     priority := 999 }
            else none) by
    simpa using h (pySplitParas text) []
  intro l
  induction l with
  | nil =>
    intro acc
    simp
  | cons x rest ih =>
    intro acc
    simp only [List.foldl_cons, List.filterMap_cons]
    by_cases hk : minLen ≤ (pstrip x).length
    · have hne : pstrip x ≠ [] := by
        apply List.ne_nil_of_length_pos
        omega
      rw [if_pos ⟨hne, hk⟩, if_pos hk, ih, List.append_assoc]
      rfl
    · have : ¬(pstrip x ≠ [] ∧ minLen ≤ (pstrip x).length) := by
        intro hcon
        exact hk hcon.2
      rw [if_neg this, if_neg hk, ih]

theorem length_filterMap_ite {α β : Type} (p : α → Prop) [DecidablePred p] (g : α → β) :
    ∀ l : List α,
      (l.filterMap (fun x => if p x then some (g x) else none)).length
        = (l.filter (fun x => decide (p x))).length := by
  intro l
  induction l with
  | nil => simp
  | cons x rest ih =>
    by_cases hk : p x
    · simp [hk, ih]
    · simp [hk, ih]

/-- C3 (amended): when no boundary pattern matches, the contract splitter
returns exactly one span per paragraph (split on runs of two or more newlines)
whose stripped length reaches the minimum, each with the low priority 999 and
a header derived from the first line of the span (truncated); the legal
splitter instead returns the whole stripped text as a single chunk when it
meets the minimum length, never one chunk per paragraph. -/
theorem contract_paragraph_fallback (minLen : Nat) (text : Str) (h1 : 1 ≤ minLen)
    (hne : pstrip text ≠ []) (hpos : findAllClausePositions text = []) :
    splitByContractClauses minLen text
        = (pySplitParas text).filterMap (fun para =>
            let p := pstrip para
            if minLen ≤ p.length then
              some { text := p, ctype := detectClauseType p, header := paraHeader p,
                     priority := 999 }
            else none)
  ∧ (splitByContractClauses minLen text).length
        = ((pySplitParas text).filter
            (fun para => decide (minLen ≤ (pstrip para).length))).length
  ∧ (∀ sp ∈ splitByContractClauses minLen text,
       sp.priority = 999 ∧ sp.header = paraHeader sp.text)
  ∧ (lawClauseStarts text = [] →
       lawSplitByClauses minLen text
         = if minLen ≤ (pstrip text).length then [pstrip text] else []) := by
  have htext : text ≠ [] := by
    intro hcon
    apply hne
    rw [hcon]
    rfl
  have hsplit : splitByContractClauses minLen text = splitByParagraphs minLen text := by
    unfold splitByContractClauses
    rw [if_neg hne, hpos]
  have hmain := splitByParagraphs_eq_filterMap minLen text h1 htext
  refine ⟨hsplit.trans hmain, ?_, ?_, ?_⟩
  · rw [hsplit, hmain]
    exact length_filterMap_ite (fun para => minLen ≤ (pstrip para).length) _ _
  · intro sp hsp
    rw [hsplit, hmain] at hsp
    rw [List.mem_filterMap] at hsp
    obtain ⟨para, _, hpara⟩ := hsp
    dsimp only at hpara
    by_cases hk : minLen ≤ (pstrip para).length
    · rw [if_pos hk] at hpara
      cases hpara
      exact ⟨rfl, rfl⟩
    · rw [if_neg hk] at hpara
      cases hpara
  · intro hls
    unfold lawSplitByClauses lawSplitByClausesWith
    rw [if_neg hne]
    have : lawClauseStartsWith id text = [] := hls
    rw [this]

/-- C3 counterexample: a text with two paragraphs of 20 letters each, no
pattern matches, and minimum length 20: the claim demands one span per
paragraph (two spans), but the legal splitter returns the whole text as a
single chunk. -/
theorem law_fallback_single_chunk :
    lawClauseStarts "aaaaaaaaaaaaaaaaaaaa\n\nbbbbbbbbbbbbbbbbbbbb".toList = []
  ∧ ((pySplitParas "aaaaaaaaaaaaaaaaaaaa\n\nbbbbbbbbbbbbbbbbbbbb".toList).filter
      (fun para => decide (20 ≤ (pstrip para).length))).length = 2
  ∧ lawSplitByClauses 20 "aaaaaaaaaaaaaaaaaaaa\n\nbbbbbbbbbbbbbbbbbbbb".toList
      = ["aaaaaaaaaaaaaaaaaaaa\n\nbbbbbbbbbbbbbbbbbbbb".toList]
  ∧ (lawSplitByClauses 20 "aaaaaaaaaaaaaaaaaaaa\n\nbbbbbbbbbbbbbbbbbbbb".toList).length
      ≠ 2 := by
  refine ⟨by decide, by decide, by decide, by decide⟩

/-- C3 witness: the fallback theorem applied to a concrete two-paragraph text
with no pattern matches and minimum length 3. -/
theorem contract_paragraph_fallback_witness :
    (1 ≤ 3 ∧ pstrip "apple\n\nbanana fruit".toList ≠ []
      ∧ findAllClausePositions "apple\n\nbanana fruit".toList = [])
  ∧ (splitByContractClauses 3 "apple\n\nbanana fruit".toList
        = (pySplitParas "apple\n\nbanana fruit".toList).filterMap (fun para =>
            let p := pstrip para
            if 3 ≤ p.length then
              some { text := p, ctype := detectClauseType p, header := paraHeader p,
                     priority := 999 }
            else none)
    ∧ (splitByContractClauses 3 "apple\n\nbanana fruit".toList).length
        = ((pySplitParas "apple\n\nbanana fruit".toList).filter
            (fun para => decide (3 ≤ (pstrip para).length))).length
    ∧ (∀ sp ∈ splitByContractClauses 3 "apple\n\nbanana fruit".toList,
         sp.priority = 999 ∧ sp.header = paraHeader sp.text)
    ∧ (lawClauseStarts "apple\n\nbanana fruit".toList = [] →
         lawSplitByClauses 3 "apple\n\nbanana fruit".toList
           = if 3 ≤ (pstrip "apple\n\nbanana fruit".toList).length
             then [pstrip "apple\n\nbanana fruit".toList] else [])) :=
  ⟨⟨by decide, by decide, by decide⟩,
   contract_paragraph_fallback 3 "apple\n\nbanana fruit".toList (by decide) (by decide)
     (by decide)⟩

theorem identifyContractParty_eq_find (text : Str) :
    identifyContractParty text
      = (((partyPatterns.find?
            (fun kv => searchKwColon (text.take 200) kv.1)).map Prod.snd).getD "其他") := by
  unfold identifyContractParty partyPatterns
  by_cases h1 : searchKwColon (text.take 200) "甲方".toList = true
  · rw [if_pos h1]
    simp_all [List.find?]
  · rw [if_neg h1]
    by_cases h2 : searchKwColon (text.take 200) "乙方".toList = true
    · rw [if_pos h2]
      simp_all [List.find?]
    · rw [if_neg h2]
      by_cases h3 : searchKwColon (text.take 200) "借款人".toList = true
      · rw [if_pos h3]
        simp_all [List.find?]
      · rw [if_neg h3]
        by_cases h4 : searchKwColon (text.take 200) "贷款人".toList = true
        · rw [if_pos h4]
          simp_all [List.find?]
        · rw [if_neg h4]
          by_cases h5 : searchKwColon (text.take 200) "出借人".toList = true
          · rw [if_pos h5]
            simp_all [List.find?]
          · rw [if_neg h5]
            by_cases h6 : searchKwColon (text.take 200) "保证人".toList = true
            · rw [if_pos h6]
              simp_all [List.find?]
            · rw [if_neg h6]
              by_cases h7 : searchKwColon (text.take 200) "抵押人".toList = true
              · rw [if_pos h7]
                simp_all [List.find?]
              · rw [if_neg h7]
                simp_all [List.find?]

/-- C4: party identification searches only the first 200 characters of the
clause text for a party keyword followed by a half- or full-width colon,
checks the keywords in the fixed branch order with the first match winning and
the label for other parties as default (first conjunct), and on the clause
consisting of 250 repetitions of X followed by the colon-anchored first-party
label it reports the other-party label, because the keyword starts after
character 200 (second conjunct). -/
theorem party_identification_scope :
    (∀ text : Str,
      identifyContractParty text
        = (((partyPatterns.find?
              (fun kv => searchKwColon (text.take 200) kv.1)).map Prod.snd).getD "其他"))
  ∧ identifyContractParty (List.replicate 250 'X' ++ "甲方:ABC".toList) = "其他" :=
  ⟨identifyContractParty_eq_find, by decide⟩

theorem processContractDocuments_eq_flatMap (minLen : Nat) (docs : List Doc) :
    processContractDocuments minLen docs
      = (docs.filter (fun d => d.ok)).flatMap (enrichContractDoc minLen) := by
  suffices h : ∀ (ds : List Doc) (acc : List CRecord),
      ds.foldl (fun acc d => if d.ok then acc ++ enrichContractDoc minLen d else acc) acc
        = acc ++ (ds.filter (fun d => d.ok)).flatMap (enrichContractDoc minLen) by
    simpa using h docs []
  intro ds
  induction ds with
  | nil =>
    intro acc
    simp
  | cons d rest ih =>
    intro acc
    by_cases hok : d.ok
    · simp [hok, ih, List.filter_cons]
    · simp [hok, ih, List.filter_cons]

theorem processLawDocuments_eq_flatMap (minLen : Nat) (docs : List Doc) :
    processLawDocuments minLen docs
      = (docs.filter (fun d => d.ok)).flatMap (enrichLawDoc minLen) := by
  suffices h : ∀ (ds : List Doc) (acc : List LRecord),
      ds.foldl (fun acc d => if d.ok then acc ++ enrichLawDoc minLen d else acc) acc
        = acc ++ (ds.filter (fun d => d.ok)).flatMap (enrichLawDoc minLen) by
    simpa using h docs []
  intro ds
  induction ds with
  | nil =>
    intro acc
    simp
  | cons d rest ih =>
    intro acc
    by_cases hok : d.ok
    · simp [hok, ih, List.filter_cons]
    · simp [hok, ih, List.filter_cons]

/-- C5: within process_documents, each successfully extracted document
contributes records whose chunk indices are exactly 0..N-1 in span order and
whose sibling count equals N, where N is the number of spans of that document,
for the contract processor and for the legal processor alike; the batch output
is the in-order concatenation of the per-document record lists of the
successfully extracted documents. -/
theorem chunk_indices_contiguous :
    (∀ (minLen : Nat) (doc : Doc),
        ((enrichContractDoc minLen doc).map (fun r => r.meta.chunkIndex))
            = List.range (splitByContractClauses minLen doc.fullText).length
      ∧ (∀ r ∈ enrichContractDoc minLen doc,
          r.meta.totalChunksInDoc = (splitByContractClauses minLen doc.fullText).length))
  ∧ (∀ (minLen : Nat) (docs : List Doc),
      processContractDocuments minLen docs
        = (docs.filter (fun d => d.ok)).flatMap (enrichContractDoc minLen))
  ∧ (∀ (minLen : Nat) (doc : Doc),
        ((enrichLawDoc minLen doc).map (fun r => r.meta.chunkIndex))
            = List.range (lawSplitByClauses minLen doc.fullText).length
      ∧ (∀ r ∈ enrichLawDoc minLen doc,
          r.meta.totalChunksInDoc = (lawSplitByClauses minLen doc.fullText).length))
  ∧ (∀ (minLen : Nat) (docs : List Doc),
      processLawDocuments minLen docs
        = (docs.filter (fun d => d.ok)).flatMap (enrichLawDoc minLen)) := by
  refine ⟨?_, processContractDocuments_eq_flatMap, ?_, processLawDocuments_eq_flatMap⟩
  · intro minLen doc
    constructor
    · unfold enrichContractDoc
      rw [List.map_map]
      exact List.enum_map_fst (splitByContractClauses minLen doc.fullText)
    · intro r hr
      unfold enrichContractDoc at hr
      rw [List.mem_map] at hr
      obtain ⟨ic, _, rfl⟩ := hr
      rfl
  · intro minLen doc
    constructor
    · unfold enrichLawDoc
      rw [List.map_map]
      exact List.enum_map_fst (lawSplitByClauses minLen doc.fullText)
    · intro r hr
      unfold enrichLawDoc at hr
      rw [List.mem_map] at hr
      obtain ⟨ic, _, rfl⟩ := hr
      rfl

/-- C5 witness: the index theorem applied to a concrete document that splits
into two clauses, with the indices also evaluated concretely. -/
theorem chunk_indices_contiguous_witness :
    (((enrichContractDoc 5 ⟨"a.docx", "序言序言序言\n第一条 内容内容".toList, true⟩).map
          (fun r => r.meta.chunkIndex))
        = List.range (splitByContractClauses 5 "序言序言序言\n第一条 内容内容".toList).length
    ∧ (∀ r ∈ enrichContractDoc 5 ⟨"a.docx", "序言序言序言\n第一条 内容内容".toList, true⟩,
        r.meta.totalChunksInDoc
          = (splitByContractClauses 5 "序言序言序言\n第一条 内容内容".toList).length))
  ∧ ((enrichContractDoc 5 ⟨"a.docx", "序言序言序言\n第一条 内容内容".toList, true⟩).map
        (fun r => r.meta.chunkIndex)) = [0, 1] :=
  ⟨chunk_indices_contiguous.1 5 ⟨"a.docx", "序言序言序言\n第一条 内容内容".toList, true⟩,
   by decide⟩

theorem detectPatLoop_eq_find (s : Str) :
    ∀ rules : List CRule,
      detectPatLoop rules s
        = (rules.find? (fun r => (r.matchAt s).isSome)).map CRule.ctype := by
  intro rules
  induction rules with
  | nil => rfl
  | cons r rest ih =>
    simp only [detectPatLoop]
    by_cases h : (r.matchAt s).isSome = true
    · rw [if_pos h, @List.find?_cons_of_pos _ (fun r => (r.matchAt s).isSome) r rest h]
      rfl
    · rw [if_neg h, @List.find?_cons_of_neg _ (fun r => (r.matchAt s).isSome) r rest h, ih]

theorem detectKwLoop_eq_find (s : Str) :
    ∀ kws : List (Str × String),
      detectKwLoop kws s
        = (kws.find? (fun kv => containsSub s kv.1)).map Prod.snd := by
  intro kws
  induction kws with
  | nil => rfl
  | cons kv rest ih =>
    simp only [detectKwLoop]
    by_cases h : containsSub s kv.1 = true
    · rw [if_pos h, @List.find?_cons_of_pos _ (fun kv => containsSub s kv.1) kv rest h]
      rfl
    · rw [if_neg h, @List.find?_cons_of_neg _ (fun kv => containsSub s kv.1) kv rest h, ih]

/-- C6 (amended): the contract classifier works in three stages: the stripped
first line is re-matched against every pattern rule in table order and the
first match decides (stages as loops characterised by the first two
conjuncts); only if no rule matches is the keyword table scanned over the
first 50 characters of that first line; only if both fail does the length
bucket decide, so a bucket never overrides a pattern or keyword result.  The
legal classifier has no keyword or bucket stage (see the counterexample). -/
theorem classifier_stages (text : Str) :
    (detectPatLoop contractClausePatterns (pstrip (firstLineOf text))
        = (contractClausePatterns.find?
            (fun r => (r.matchAt (pstrip (firstLineOf text))).isSome)).map CRule.ctype)
  ∧ (detectKwLoop contractKeywords ((pstrip (firstLineOf text)).take 50)
        = (contractKeywords.find?
            (fun kv => containsSub ((pstrip (firstLineOf text)).take 50) kv.1)).map Prod.snd)
  ∧ (∀ t, detectPatLoop contractClausePatterns (pstrip (firstLineOf text)) = some t →
        detectClauseType text = t)
  ∧ (detectPatLoop contractClausePatterns (pstrip (firstLineOf text)) = none →
      (∀ t, detectKwLoop contractKeywords ((pstrip (firstLineOf text)).take 50) = some t →
          detectClauseType text = t)
    ∧ (detectKwLoop contractKeywords ((pstrip (firstLineOf text)).take 50) = none →
        detectClauseType text
          = (if text.length < 100 then "短条款"
             else if text.length < 300 then "中等条款" else "长条款"))) := by
  refine ⟨detectPatLoop_eq_find _ _, detectKwLoop_eq_find _ _, ?_, ?_⟩
  · intro t h
    simp only [detectClauseType]
    rw [h]
  · intro hpat
    constructor
    · intro t h
      simp only [detectClauseType]
      rw [hpat, h]
    · intro hkw
      simp only [detectClauseType]
      rw [hpat, hkw]

/-- C6 counterexample: on a plain English span of length 11 no legal pattern
matches and no keyword occurs, so the claimed three-stage classification would
end in the short length bucket; the legal classifier instead returns its
constant plain-text label, which is not a length bucket. -/
theorem law_classifier_returns_plain_text :
    lawDetectClauseType "hello world".toList = "普通文本"
  ∧ detectKwLoop contractKeywords ((pstrip (firstLineOf "hello world".toList)).take 50) = none
  ∧ lawPatterns.all (fun p => (runM p "hello world".toList).isNone) = true
  ∧ ("hello world".toList.length < 100 ∧ ("普通文本" : String) ≠ "短条款") := by
  refine ⟨by decide, by decide, by decide, by decide⟩

/-- C6 witness: the staging theorem applied to a concrete span where neither a
pattern nor a keyword matches, showing the bucket stage decides. -/
theorem classifier_stages_witness :
    detectPatLoop contractClausePatterns (pstrip (firstLineOf "hello world".toList)) = none
  ∧ detectKwLoop contractKeywords ((pstrip (firstLineOf "hello world".toList)).take 50) = none
  ∧ detectClauseType "hello world".toList = "短条款" := by
  refine ⟨by decide, by decide, ?_⟩
  have h := ((classifier_stages "hello world".toList).2.2.2 (by decide)).2 (by decide)
  exact h.trans (by decide)

theorem mem_buildClauses_priority (minLen : Nat) (text : Str) :
    ∀ (cs : List Cand) (sp : Span), sp ∈ buildClauses minLen text cs →
      ∃ c ∈ cs, sp.priority = c.priority := by
  intro cs
  induction cs with
  | nil =>
    intro sp hsp
    simp [buildClauses] at hsp
  | cons c rest ih =>
    intro sp hsp
    rw [buildClauses_cons] at hsp
    dsimp only at hsp
    split at hsp
    · rcases List.mem_cons.mp hsp with rfl | hmem
      · exact ⟨c, List.mem_cons_self _ _, rfl⟩
      · obtain ⟨c2, hc2, hpr⟩ := ih sp hmem
        exact ⟨c2, List.mem_cons_of_mem _ hc2, hpr⟩
    · obtain ⟨c2, hc2, hpr⟩ := ih sp hsp
      exact ⟨c2, List.mem_cons_of_mem _ hc2, hpr⟩

theorem mem_greedyDedup (l : List Cand) (x : Cand) (hx : x ∈ greedyDedup l) : x ∈ l := by
  suffices h : ∀ (l : List Cand) (acc : List Cand), x ∈ l.foldl dedupStep acc →
      x ∈ acc ∨ x ∈ l by
    rcases h l [] hx with hc | hc
    · simp at hc
    · exact hc
  intro l
  induction l with
  | nil =>
    intro acc h
    exact Or.inl h
  | cons y rest ih =>
    intro acc h
    rw [List.foldl_cons] at h
    rcases ih (dedupStep acc y) h with hc | hc
    · unfold dedupStep at hc
      by_cases hr : isPosRecorded y.pos acc
      · rw [if_pos hr] at hc
        exact Or.inl hc
      · rw [if_neg hr] at hc
        rcases List.mem_append.mp hc with hc2 | hc2
        · exact Or.inl hc2
        · rcases List.mem_singleton.mp hc2 with rfl
          exact Or.inr (List.mem_cons_self _ _)
    · exact Or.inr (List.mem_cons_of_mem _ hc)

theorem mem_collect_priority (rules : List CRule) (text : Str) (c : Cand)
    (hc : c ∈ collectPositions rules text) : ∃ r ∈ rules, c.priority = r.priority := by
  rw [collect_eq_greedyDedup] at hc
  have hc2 := mem_greedyDedup _ _ hc
  unfold discoveredMatches at hc2
  rw [List.mem_flatMap] at hc2
  obtain ⟨r, hr, hmem⟩ := hc2
  refine ⟨r, hr, ?_⟩
  cases hscan : r.scan text with
  | none =>
    rw [hscan] at hmem
    simp at hmem
  | some ms =>
    rw [hscan] at hmem
    rw [List.mem_map] at hmem
    obtain ⟨m, _, rfl⟩ := hmem
    rfl

theorem contract_rule_priorities_pos : ∀ r ∈ contractClausePatterns, 1 ≤ r.priority := by
  decide

/-- C7: when the first boundary candidate starts after offset 0, the text
before it becomes a preamble span kept exactly when its stripped length
reaches the minimum, bearing the distinct preamble header and priority 0,
while every clause span carries the priority of some pattern rule, which is
always at least 1. -/
theorem preamble_span (minLen : Nat) (text : Str) (c0 : Cand) (rest : List Cand)
    (h1 : 1 ≤ minLen) (hfp : findAllClausePositions text = c0 :: rest) (h0 : 0 < c0.pos)
    (hne : pstrip text ≠ []) :
    splitByContractClauses minLen text
        = (if minLen ≤ (pstrip (text.take c0.pos)).length then
             [{ text := pstrip (text.take c0.pos),
                ctype := detectClauseType (pstrip (text.take c0.pos)),
                header := "合同前言".toList, priority := 0 }]
           else [])
          ++ buildClauses minLen text (c0 :: rest)
  ∧ (∀ sp ∈ buildClauses minLen text (c0 :: rest), 1 ≤ sp.priority) := by
  constructor
  · unfold splitByContractClauses
    rw [if_neg hne, hfp]
    dsimp only
    rw [if_pos h0]
    by_cases hk : minLen ≤ (pstrip (text.take c0.pos)).length
    · have hnn : pstrip (text.take c0.pos) ≠ [] := by
        apply List.ne_nil_of_length_pos
        omega
      rw [if_pos ⟨hnn, hk⟩, if_pos hk]
    · have : ¬(pstrip (text.take c0.pos) ≠ []
          ∧ minLen ≤ (pstrip (text.take c0.pos)).length) := by
        intro hcon
        exact hk hcon.2
      rw [if_neg this, if_neg hk]
  · intro sp hsp
    obtain ⟨c, hc, hpr⟩ := mem_buildClauses_priority minLen text (c0 :: rest) sp hsp
    rw [← hfp] at hc
    have hmemc : c ∈ collectPositions contractClausePatterns text := by
      have hperm : (findAllClausePositions text).Perm
          (collectPositions contractClausePatterns text) := List.perm_insertionSort _ _
      exact hperm.mem_iff.mp hc
    obtain ⟨r, hr, hpr2⟩ := mem_collect_priority _ _ _ hmemc
    rw [hpr, hpr2]
    exact contract_rule_priorities_pos r hr

/-- C7 witness: the preamble theorem applied to a concrete text whose single
boundary candidate starts at offset 7, with the resulting span list also
evaluated concretely. -/
theorem preamble_span_witness :
    (splitByContractClauses 5 "序言序言序言\n第一条 内容内容".toList
        = (if 5 ≤ (pstrip ("序言序言序言\n第一条 内容内容".toList.take 7)).length then
             [{ text := pstrip ("序言序言序言\n第一条 内容内容".toList.take 7),
                ctype := detectClauseType (pstrip ("序言序言序言\n第一条 内容内容".toList.take 7)),
                header := "合同前言".toList, priority := 0 }]
           else [])
          ++ buildClauses 5 "序言序言序言\n第一条 内容内容".toList
              [{ pos := 7, header := "第一条 内容内容".toList, ctype := "中文条款", priority := 1 }]
    ∧ (∀ sp ∈ buildClauses 5 "序言序言序言\n第一条 内容内容".toList
          [{ pos := 7, header := "第一条 内容内容".toList, ctype := "中文条款", priority := 1 }],
        1 ≤ sp.priority))
  ∧ (splitByContractClauses 5 "序言序言序言\n第一条 内容内容".toList).length = 2 :=
  ⟨preamble_span 5 "序言序言序言\n第一条 内容内容".toList
      { pos := 7, header := "第一条 内容内容".toList, ctype := "中文条款", priority := 1 } []
      (by decide) (by decide) (by decide) (by decide),
   by decide⟩

/-- C8: on empty or whitespace-only input both splitter entry points return
the empty span list (both are total functions, so no exception can occur). -/
theorem empty_input_empty_output (minLen : Nat) (text : Str) (h : pstrip text = []) :
    splitByContractClauses minLen text = [] ∧ lawSplitByClauses minLen text = [] := by
  constructor
  · unfold splitByContractClauses
    rw [if_pos h]
  · unfold lawSplitByClauses lawSplitByClausesWith
    rw [if_pos h]

/-- C8 witness: the empty-input theorem applied to a whitespace-only string. -/
theorem empty_input_empty_output_witness :
    pstrip " \n\t ".toList = []
  ∧ (splitByContractClauses 30 " \n\t ".toList = []
      ∧ lawSplitByClauses 30 " \n\t ".toList = []) :=
  ⟨by decide, empty_input_empty_output 30 " \n\t ".toList (by decide)⟩

/-- C9: in the contract boundary scan, a rule whose compilation or execution
fails (its scan reports the error) is skipped and the scan of all remaining
rules proceeds as if the rule were absent, for any position of the failing
rule in the table; a single failing rule never aborts the scan. -/
theorem pattern_error_rule_skipped (pre post : List CRule) (bad : CRule) (text : Str)
    (hbad : bad.scan text = none) :
    findAllClausePositionsWith (pre ++ bad :: post) text
      = findAllClausePositionsWith (pre ++ post) text := by
  unfold findAllClausePositionsWith collectPositions
  congr 1
  rw [List.foldl_append, List.foldl_cons, List.foldl_append]
  congr 1
  simp [hbad]

/-- C9 witness: the skip theorem applied with a concrete always-failing rule
in front of the full contract rule table. -/
theorem pattern_error_rule_skipped_witness :
    (CRule.mk (fun _ => none) (fun _ => none) "坏规则" 0).scan "第一条 内容内容".toList = none
  ∧ findAllClausePositionsWith
        ([] ++ CRule.mk (fun _ => none) (fun _ => none) "坏规则" 0 :: contractClausePatterns)
        "第一条 内容内容".toList
      = findAllClausePositionsWith ([] ++ contractClausePatterns) "第一条 内容内容".toList :=
  ⟨rfl,
   pattern_error_rule_skipped [] contractClausePatterns
     (CRule.mk (fun _ => none) (fun _ => none) "坏规则" 0) "第一条 内容内容".toList rfl⟩

theorem lawBuildChunks_congr (minLen : Nat) (text : Str) :
    ∀ (l₁ l₂ : List (Nat × Str)), l₁.map Prod.fst = l₂.map Prod.fst →
      lawBuildChunks minLen text l₁ = lawBuildChunks minLen text l₂ := by
  intro l₁
  induction l₁ with
  | nil =>
    intro l₂ h
    cases l₂ with
    | nil => rfl
    | cons c2 r2 => simp at h
  | cons c rest ih =>
    intro l₂ h
    cases l₂ with
    | nil => simp at h
    | cons c2 rest2 =>
      simp only [List.map_cons, List.cons.injEq] at h
      obtain ⟨hfst, htail⟩ := h
      rw [lawBuildChunks_cons, lawBuildChunks_cons]
      dsimp only
      cases rest with
      | nil =>
        cases rest2 with
        | nil => rw [hfst]
        | cons y ys => simp at htail
      | cons x xs =>
        cases rest2 with
        | nil => simp at htail
        | cons y ys =>
          have hxy : x.1 = y.1 := by
            simp only [List.map_cons, List.cons.injEq] at htail
            exact htail.1
          dsimp only
          rw [hfst, hxy, ih (y :: ys) htail]

theorem lawSplitByClausesWith_congr (σ₁ σ₂ : List (Nat × Str) → List (Nat × Str))
    (minLen : Nat) (text : Str)
    (h : (lawClauseStartsWith σ₁ text).map Prod.fst
          = (lawClauseStartsWith σ₂ text).map Prod.fst) :
    lawSplitByClausesWith σ₁ minLen text = lawSplitByClausesWith σ₂ minLen text := by
  unfold lawSplitByClausesWith
  by_cases hstrip : pstrip text = []
  · rw [if_pos hstrip, if_pos hstrip]
  · rw [if_neg hstrip, if_neg hstrip]
    cases h1 : lawClauseStartsWith σ₁ text with
    | nil =>
      cases h2 : lawClauseStartsWith σ₂ text with
      | nil => rfl
      | cons c2 r2 =>
        rw [h1, h2] at h
        simp at h
    | cons c1 r1 =>
      cases h2 : lawClauseStartsWith σ₂ text with
      | nil =>
        rw [h1, h2] at h
        simp at h
      | cons c2 r2 =>
        rw [h1, h2] at h
        have hcons := h
        simp only [List.map_cons, List.cons.injEq] at hcons
        obtain ⟨hfst, htail⟩ := hcons
        dsimp only
        rw [hfst]
        congr 1
        exact lawBuildChunks_congr minLen text (c1 :: r1) (c2 :: r2) h

/-- C10: the splitters are deterministic functions of the text: the legal
splitter output is invariant under the unspecified iteration order of the
Python set used before sorting (any two permutations of the deduplicated
candidate set give identical chunk lists), and the contract splitter, which
involves no unspecified order, trivially returns equal span lists on repeated
runs; both are pure functions with no side effects in this model. -/
theorem split_deterministic (σ₁ σ₂ : List (Nat × Str) → List (Nat × Str)) (minLen : Nat)
    (text : Str)
    (hp1 : (σ₁ (dedupFirst (lawRaw text))).Perm (dedupFirst (lawRaw text)))
    (hp2 : (σ₂ (dedupFirst (lawRaw text))).Perm (dedupFirst (lawRaw text))) :
    lawSplitByClausesWith σ₁ minLen text = lawSplitByClausesWith σ₂ minLen text
  ∧ splitByContractClauses minLen text = splitByContractClauses minLen text := by
  refine ⟨?_, rfl⟩
  apply lawSplitByClausesWith_congr
  have hperm : (lawClauseStartsWith σ₁ text).Perm (lawClauseStartsWith σ₂ text) := by
    have ha : (lawClauseStartsWith σ₁ text).Perm (σ₁ (dedupFirst (lawRaw text))) :=
      List.perm_insertionSort _ _
    have hb : (lawClauseStartsWith σ₂ text).Perm (σ₂ (dedupFirst (lawRaw text))) :=
      List.perm_insertionSort _ _
    exact ((ha.trans hp1).trans hp2.symm).trans hb.symm
  have hs1 : ((lawClauseStartsWith σ₁ text).map Prod.fst).Sorted (· ≤ ·) := by
    rw [List.Sorted, List.pairwise_map]
    exact lawClauseStartsWith_sorted σ₁ text
  have hs2 : ((lawClauseStartsWith σ₂ text).map Prod.fst).Sorted (· ≤ ·) := by
    rw [List.Sorted, List.pairwise_map]
    exact lawClauseStartsWith_sorted σ₂ text
  exact List.eq_of_perm_of_sorted (hperm.map Prod.fst) hs1 hs2

/-- C10 witness: the determinism theorem applied with the reversed and the
identity set orders on a concrete two-clause text. -/
theorem split_deterministic_witness :
    lawSplitByClausesWith List.reverse 3 "第一条 总则\n第二条 附则".toList
        = lawSplitByClausesWith id 3 "第一条 总则\n第二条 附则".toList
  ∧ splitByContractClauses 3 "第一条 总则\n第二条 附则".toList
        = splitByContractClauses 3 "第一条 总则\n第二条 附则".toList :=
  split_deterministic List.reverse id 3 "第一条 总则\n第二条 附则".toList
    (List.reverse_perm _) (List.Perm.refl _)
